import Mathlib

/-!
Verification of the ETF-overlap computation core.

The embedding below is a shallow translation of the route handler that
computes pairwise and N-way overlap between funds' holdings
(`calculateOverlap`, `calculateCoreOverlap`, and the matrix loop of the
HTTP GET handler).  JavaScript numbers are modelled as exact rationals
(`ℚ`); JavaScript `Map`s built from a holdings list are modelled by
`mapGet` (later entries with the same key overwrite earlier ones, as in
`new Map(pairs)`); a plain-object dictionary written to by
`obj[key] = value` is modelled by `objSet` (an assignment to a fresh key
appends, an assignment to a present key updates in place);
`Array.prototype.sort` with the comparator `(a, b) => key(b) - key(a)` is
the stable descending-by-`key` sort, which we realise with
`List.insertionSort` (insertion sort is stable, so it computes the same
list as any stable sort with that comparator).
-/

/-- One security position inside a fund: `{ symbol, name, weight }`. -/
structure Holding where
  symbol : String
  name : String
  weight : ℚ
deriving DecidableEq, Repr, Inhabited

/-- One entry of the pairwise `sharedHoldings` array. -/
structure SharedHolding where
  symbol : String
  name : String
  weight1 : ℚ
  weight2 : ℚ
  overlapContribution : ℚ
deriving DecidableEq, Repr, Inhabited

/-- The `OverlapResult` record returned by `calculateOverlap`. -/
structure OverlapResult where
  etf1 : String
  etf2 : String
  overlapPercentage : ℚ
  sharedHoldings : List SharedHolding
  totalSharedHoldings : Nat
  uniqueHoldings1 : ℤ
  uniqueHoldings2 : ℤ
deriving DecidableEq, Repr

/-- One entry of the core-overlap `sharedHoldings` array; `weights` is the
insertion-ordered dictionary `{ [etf: string]: number }`. -/
structure CoreShared where
  symbol : String
  name : String
  weights : List (String × ℚ)
  minWeight : ℚ
deriving DecidableEq, Repr, Inhabited

/-- The `CoreOverlap` record returned by `calculateCoreOverlap`. -/
structure CoreOverlap where
  totalOverlap : ℚ
  sharedHoldings : List CoreShared
  totalSharedHoldings : Nat
deriving DecidableEq, Repr

/-- `new Map(holdings.map(h => [h.symbol, h])).get(s)`: the LAST holding
with symbol `s` wins, because later `Map` insertions overwrite. -/
def mapGet : List Holding → String → Option Holding
  | [], _ => none
  | h :: t, s =>
    match mapGet t s with
    | some r => some r
    | none => if h.symbol = s then some h else none

/-- `map.has(s)` for the same map. -/
def mapHas (hs : List Holding) (s : String) : Bool :=
  (mapGet hs s).isSome

/-- `sharedSymbols` of `calculateOverlap`:
`holdings1.map(h => h.symbol).filter(s => map2.has(s))`. -/
def sharedSymbols (holdings1 holdings2 : List Holding) : List String :=
  (holdings1.map (·.symbol)).filter (fun s => mapHas holdings2 s)

/-- The unsorted `sharedHoldings` array of `calculateOverlap`: each shared
symbol yields an entry with `name = h1.name || h2.name` and
`overlapContribution = Math.min(h1.weight, h2.weight)`, where `h1`/`h2`
come from the two symbol-keyed maps.  (The `!` non-null assertions of the
source always hold, so the `filterMap` keeps every element.) -/
def sharedEntries (holdings1 holdings2 : List Holding) : List SharedHolding :=
  (sharedSymbols holdings1 holdings2).filterMap (fun s =>
    match mapGet holdings1 s, mapGet holdings2 s with
    | some h1, some h2 =>
        some { symbol := s
               name := if h1.name = "" then h2.name else h1.name
               weight1 := h1.weight
               weight2 := h2.weight
               overlapContribution := min h1.weight h2.weight }
    | _, _ => none)

/-- `calculateOverlap` from the route handler: weighted overlap of two
holdings lists.  The entries are stable-sorted descending by contribution;
`overlapPercentage` is the `reduce`-sum of the contributions; the unique
counts subtract the shared count from each list's length. -/
def calculateOverlap (holdings1 holdings2 : List Holding) : OverlapResult :=
  let sorted := (sharedEntries holdings1 holdings2).insertionSort
    (fun a b => b.overlapContribution ≤ a.overlapContribution)
  { etf1 := ""
    etf2 := ""
    overlapPercentage := sorted.foldl (fun sum h => sum + h.overlapContribution) 0
    sharedHoldings := sorted
    totalSharedHoldings := sorted.length
    uniqueHoldings1 := (holdings1.length : ℤ) - (sorted.length : ℤ)
    uniqueHoldings2 := (holdings2.length : ℤ) - (sorted.length : ℤ) }

/-- `Math.min(...values)` over a non-empty list (the only way the code
calls it; for `[]` JavaScript would give `Infinity`, we return `0`). -/
def listMin : List ℚ → ℚ
  | [] => 0
  | x :: xs => xs.foldl min x

/-- `obj[k] = v` on a plain-object dictionary kept as an insertion-ordered
association list: a present key keeps its position and gets the new value,
a fresh key is appended. -/
def objSet (l : List (String × ℚ)) (k : String) (v : ℚ) : List (String × ℚ) :=
  if l.any (fun p => p.1 == k) then
    l.map (fun p => if p.1 == k then (p.1, v) else p)
  else l ++ [(k, v)]

/-- The body of `sharedSymbols.map(...)` in `calculateCoreOverlap`: for
one shared symbol `s`, walk `tickers` with `forEach`, recording
`weights[ticker] = holding.weight` and `names.push(holding.name)` whenever
`holdings.find(h => h.symbol === s)` succeeds; then
`minWeight = Math.min(...Object.values(weights))` and
`name = names[0] || s`. -/
def mkCoreEntry (holdingsBy : String → List Holding) (tickers : List String)
    (s : String) : CoreShared :=
  let acc := tickers.foldl
    (fun (acc : List (String × ℚ) × List String) t =>
      match (holdingsBy t).find? (fun h => h.symbol == s) with
      | some h => (objSet acc.1 t h.weight, acc.2 ++ [h.name])
      | none => acc)
    ([], [])
  { symbol := s
    name :=
      match acc.2.head? with
      | some n => if n = "" then s else n
      | none => s
    weights := acc.1
    minWeight := listMin (acc.1.map (·.2)) }

/-- The `sharedSymbols` of `calculateCoreOverlap`: the first ticker's
holdings seed the candidate symbols, each kept only if
`tickers.slice(1).every(t => holdings.some(h => h.symbol === s))`. -/
def coreSharedSymbols (holdingsBy : String → List Holding)
    (tickers : List String) : List String :=
  ((holdingsBy (tickers.headD "")).map (·.symbol)).filter (fun s =>
    (tickers.drop 1).all (fun t => (holdingsBy t).any (fun h => h.symbol == s)))

/-- `calculateCoreOverlap` from the route handler: holdings shared by ALL
tickers.  Fewer than two tickers short-circuits to the zero result;
entries are stable-sorted descending by `minWeight` and `totalOverlap` is
the `reduce`-sum of `minWeight`. -/
def calculateCoreOverlap (holdingsBy : String → List Holding)
    (tickers : List String) : CoreOverlap :=
  if tickers.length < 2 then
    { totalOverlap := 0, sharedHoldings := [], totalSharedHoldings := 0 }
  else
    let shared := (coreSharedSymbols holdingsBy tickers).map
      (mkCoreEntry holdingsBy tickers)
    let sorted := shared.insertionSort (fun a b => b.minWeight ≤ a.minWeight)
    { totalOverlap := sorted.foldl (fun sum h => sum + h.minWeight) 0
      sharedHoldings := sorted
      totalSharedHoldings := sorted.length }

/-- `Math.round` on an exact rational: round to the nearest integer,
halves toward positive infinity (`Math.round(x) = ⌊x + 1/2⌋`). -/
def jsRound (q : ℚ) : ℤ := ⌊q + 1 / 2⌋

/-- `Math.round(x * 100) / 100`, the 2-decimal rounding in the matrix loop. -/
def round2 (q : ℚ) : ℚ := (jsRound (q * 100) : ℚ) / 100

/-- The matrix loop of the GET handler: an `N×N` grid over the indices of
`tickers`; `100` on the diagonal, otherwise the rounded
`overlapPercentage` of the ordered pair of holdings lists. -/
def overlapMatrix (holdingsBy : String → List Holding)
    (tickers : List String) : List (List ℚ) :=
  (List.range tickers.length).map (fun i =>
    (List.range tickers.length).map (fun j =>
      if i = j then 100
      else round2 (calculateOverlap (holdingsBy (tickers.getD i ""))
        (holdingsBy (tickers.getD j ""))).overlapPercentage))

/-! ### Spec-side readings of the data

`weightOf`/`nameOf` read a symbol's weight/name out of a holdings list the
way the specification speaks about them ("the weight of the symbol in A");
on a list with unique symbols this is THE holding with that symbol. -/

/-- The list of symbols of a holdings list. -/
def symbolsOf (hs : List Holding) : List String := hs.map (·.symbol)

/-- The weight of symbol `s` in `hs` (`0` when absent). -/
def weightOf (hs : List Holding) (s : String) : ℚ :=
  match hs.find? (fun h => h.symbol == s) with
  | some h => h.weight
  | none => 0

/-- The name recorded for symbol `s` in `hs` (`""` when absent). -/
def nameOf (hs : List Holding) (s : String) : String :=
  match hs.find? (fun h => h.symbol == s) with
  | some h => h.name
  | none => ""

/-- Modelled from the spec's words: rounding to 2 decimal places with
round-half-up semantics (half rounds toward positive infinity). -/
def specRound2 (q : ℚ) : ℚ := ((⌊q * 100 + 1 / 2⌋ : ℤ) : ℚ) / 100

/-! Sanity checks against the end-to-end scenario of the specification:
fund AAA `[{AAPL,10},{MSFT,8},{GOOG,5}]`, fund BBB
`[{AAPL,6},{MSFT,9},{AMZN,4}]`. -/

/-- End-to-end scenario holdings for fund AAA. -/
def fundAAA : List Holding :=
  [⟨"AAPL", "Apple", 10⟩, ⟨"MSFT", "Microsoft", 8⟩, ⟨"GOOG", "Google", 5⟩]

/-- End-to-end scenario holdings for fund BBB. -/
def fundBBB : List Holding :=
  [⟨"AAPL", "Apple", 6⟩, ⟨"MSFT", "Microsoft", 9⟩, ⟨"AMZN", "Amazon", 4⟩]

example : (calculateOverlap fundAAA fundBBB).overlapPercentage = 14 := by
  norm_num [calculateOverlap, mapGet, mapHas, fundAAA, fundBBB,
    List.insertionSort, List.orderedInsert]

example : (calculateOverlap fundAAA fundBBB).sharedHoldings.map
    (fun e => (e.symbol, e.overlapContribution)) = [("MSFT", 8), ("AAPL", 6)] := by
  norm_num [calculateOverlap, mapGet, mapHas, fundAAA, fundBBB,
    List.insertionSort, List.orderedInsert]

example : (calculateOverlap fundAAA fundBBB).uniqueHoldings1 = 1 ∧
    (calculateOverlap fundAAA fundBBB).uniqueHoldings2 = 1 := by
  norm_num [calculateOverlap, mapGet, mapHas, fundAAA, fundBBB,
    List.insertionSort, List.orderedInsert]

/-! ### Basic lemmas about the embedding -/

theorem foldl_add_eq_sum {α : Type*} (f : α → ℚ) :
    ∀ (l : List α) (init : ℚ),
      l.foldl (fun sum h => sum + f h) init = init + (l.map f).sum
  | [], _ => by simp
  | x :: t, init => by
    simp only [List.foldl_cons, List.map_cons, List.sum_cons]
    rw [foldl_add_eq_sum f t (init + f x), add_assoc]

theorem mapGet_isSome_iff (hs : List Holding) (s : String) :
    (mapGet hs s).isSome = true ↔ s ∈ symbolsOf hs := by
  induction hs with
  | nil => simp [mapGet, symbolsOf]
  | cons h t ih =>
    simp only [symbolsOf, List.map_cons, List.mem_cons] at *
    cases hm : mapGet t s with
    | some r =>
      simp only [mapGet, hm, Option.isSome_some, true_iff]
      exact Or.inr (ih.1 (by simp [hm]))
    | none =>
      by_cases he : h.symbol = s
      · simp [mapGet, hm, he]
      · have hnt : s ∉ (t.map (fun h => h.symbol)) := fun hmem => by
          have := ih.2 hmem
          simp [hm] at this
        simp [mapGet, hm, he, Ne.symm he, hnt]

theorem mapHas_iff (hs : List Holding) (s : String) :
    mapHas hs s = true ↔ s ∈ symbolsOf hs := by
  simpa [mapHas] using mapGet_isSome_iff hs s

theorem mapGet_eq_find? (hs : List Holding) (s : String)
    (hnd : (symbolsOf hs).Nodup) :
    mapGet hs s = hs.find? (fun h => h.symbol == s) := by
  induction hs with
  | nil => rfl
  | cons h t ih =>
    obtain ⟨hh, ht⟩ : h.symbol ∉ (t.map (fun h => h.symbol)) ∧
        (symbolsOf t).Nodup := by
      simpa [symbolsOf, List.nodup_cons] using hnd
    by_cases he : h.symbol = s
    · have hmem : s ∉ symbolsOf t := by rw [← he]; exact hh
      have hnone : mapGet t s = none := by
        cases hm : mapGet t s with
        | none => rfl
        | some r =>
          exact absurd ((mapGet_isSome_iff t s).1 (by simp [hm])) hmem
      simp [mapGet, hnone, he, List.find?_cons]
    · have hstep : mapGet (h :: t) s = mapGet t s := by
        cases hm : mapGet t s <;> simp [mapGet, hm, he]
      rw [hstep, ih ht]
      simp [List.find?_cons, he]

theorem filterMap_eq_map_of_some {α β : Type*} (g : α → Option β) (f : α → β) :
    ∀ l : List α, (∀ a ∈ l, g a = some (f a)) → l.filterMap g = l.map f
  | [], _ => rfl
  | x :: t, h => by
    rw [List.filterMap_cons, h x (by simp), List.map_cons,
      filterMap_eq_map_of_some g f t (fun a ha => h a (by simp [ha]))]

/-! ### The stable descending-by-key sort -/

theorem mem_orderedInsert_key {α : Type*} (key : α → ℚ) (x : α) (l : List α)
    (y : α) :
    y ∈ l.orderedInsert (fun a b => key b ≤ key a) x ↔ y = x ∨ y ∈ l :=
  List.mem_orderedInsert (fun a b => key b ≤ key a)

theorem pairwise_orderedInsert_key {α : Type*} (key : α → ℚ) (x : α) :
    ∀ l : List α, l.Pairwise (fun a b => key b ≤ key a) →
      (l.orderedInsert (fun a b => key b ≤ key a) x).Pairwise
        (fun a b => key b ≤ key a)
  | [], _ => by simp
  | y :: ys, hl => by
    rw [List.orderedInsert]
    obtain ⟨hy, hys⟩ := List.pairwise_cons.1 hl
    by_cases hxy : key y ≤ key x
    · rw [if_pos hxy]
      refine List.Pairwise.cons ?_ hl
      intro z hz
      rcases List.mem_cons.1 hz with rfl | hz
      · exact hxy
      · exact le_trans (hy z hz) hxy
    · rw [if_neg hxy]
      refine List.Pairwise.cons ?_ (pairwise_orderedInsert_key key x ys hys)
      intro z hz
      rcases (mem_orderedInsert_key key x ys z).1 hz with rfl | hz
      · exact le_of_not_le hxy
      · exact hy z hz

theorem pairwise_insertionSort_key {α : Type*} (key : α → ℚ) :
    ∀ l : List α,
      (l.insertionSort (fun a b => key b ≤ key a)).Pairwise
        (fun a b => key b ≤ key a)
  | [] => by simp
  | x :: l => by
    rw [List.insertionSort]
    exact pairwise_orderedInsert_key key x _ (pairwise_insertionSort_key key l)

theorem filter_orderedInsert_key {α : Type*} (key : α → ℚ) (v : ℚ) (x : α) :
    ∀ l : List α,
      (l.orderedInsert (fun a b => key b ≤ key a) x).filter
          (fun a => decide (key a = v)) =
        (if key x = v then [x] else []) ++ l.filter (fun a => decide (key a = v))
  | [] => by
    by_cases hx : key x = v <;> simp [List.orderedInsert, hx]
  | y :: ys => by
    rw [List.orderedInsert]
    by_cases hxy : key y ≤ key x
    · rw [if_pos hxy]
      by_cases hx : key x = v <;> simp [List.filter_cons, hx]
    · rw [if_neg hxy]
      have hlt : key x < key y := lt_of_not_le hxy
      by_cases hx : key x = v
      · have hy : ¬ key y = v := by
          intro hyv
          rw [hx] at hlt
          rw [hyv] at hlt
          exact lt_irrefl v hlt
        rw [List.filter_cons, filter_orderedInsert_key key v x ys]
        simp [hx, hy]
      · rw [List.filter_cons, filter_orderedInsert_key key v x ys]
        simp only [hx, if_false, List.nil_append, List.filter_cons]

theorem filter_insertionSort_key {α : Type*} (key : α → ℚ) (v : ℚ) :
    ∀ l : List α,
      (l.insertionSort (fun a b => key b ≤ key a)).filter
          (fun a => decide (key a = v)) =
        l.filter (fun a => decide (key a = v))
  | [] => rfl
  | x :: l => by
    rw [List.insertionSort, filter_orderedInsert_key key v x,
      filter_insertionSort_key key v l, List.filter_cons]
    by_cases hx : key x = v <;> simp [hx]

/-! ### Characterising the pairwise overlap -/

theorem find?_symbol_eq_some (hs : List Holding) (s : String)
    (h : s ∈ symbolsOf hs) :
    ∃ h0, hs.find? (fun h => h.symbol == s) = some h0 := by
  obtain ⟨h1, hmem, hsym⟩ : ∃ a ∈ hs, a.symbol = s := by
    simpa [symbolsOf] using h
  cases hf : hs.find? (fun h => h.symbol == s) with
  | some h0 => exact ⟨h0, rfl⟩
  | none =>
    have := List.find?_eq_none.1 hf h1 hmem
    simp [hsym] at this

/-- The spec-side form of one shared-holding entry. -/
def specEntry (holdings1 holdings2 : List Holding) (s : String) : SharedHolding :=
  { symbol := s
    name := if nameOf holdings1 s = "" then nameOf holdings2 s
            else nameOf holdings1 s
    weight1 := weightOf holdings1 s
    weight2 := weightOf holdings2 s
    overlapContribution := min (weightOf holdings1 s) (weightOf holdings2 s) }

theorem sharedEntries_eq_map (holdings1 holdings2 : List Holding)
    (h1 : (symbolsOf holdings1).Nodup) (h2 : (symbolsOf holdings2).Nodup) :
    sharedEntries holdings1 holdings2 =
      (sharedSymbols holdings1 holdings2).map (specEntry holdings1 holdings2) := by
  apply filterMap_eq_map_of_some
  intro s hsmem
  obtain ⟨hex, hhas⟩ : (∃ a ∈ holdings1, a.symbol = s) ∧
      mapHas holdings2 s = true := by
    simpa [sharedSymbols] using hsmem
  have hs1 : s ∈ symbolsOf holdings1 := by simpa [symbolsOf] using hex
  have hs2 : s ∈ symbolsOf holdings2 := (mapHas_iff _ _).1 hhas
  obtain ⟨a1, hf1⟩ := find?_symbol_eq_some holdings1 s hs1
  obtain ⟨a2, hf2⟩ := find?_symbol_eq_some holdings2 s hs2
  rw [mapGet_eq_find? _ _ h1, mapGet_eq_find? _ _ h2, hf1, hf2]
  have hw1 : weightOf holdings1 s = a1.weight := by simp [weightOf, hf1]
  have hw2 : weightOf holdings2 s = a2.weight := by simp [weightOf, hf2]
  have hn1 : nameOf holdings1 s = a1.name := by simp [nameOf, hf1]
  have hn2 : nameOf holdings2 s = a2.name := by simp [nameOf, hf2]
  simp [specEntry, hw1, hw2, hn1, hn2]

theorem overlapPercentage_eq_contribution_sum (holdings1 holdings2 : List Holding) :
    (calculateOverlap holdings1 holdings2).overlapPercentage =
      ((sharedEntries holdings1 holdings2).map (·.overlapContribution)).sum := by
  rw [calculateOverlap]
  simp only
  rw [foldl_add_eq_sum, zero_add]
  exact List.Perm.sum_eq (List.Perm.map _ (List.perm_insertionSort _ _))

theorem sharedSymbols_nodup (holdings1 holdings2 : List Holding)
    (h1 : (symbolsOf holdings1).Nodup) :
    (sharedSymbols holdings1 holdings2).Nodup := by
  simpa [sharedSymbols, symbolsOf] using h1.filter (fun s => mapHas holdings2 s)

theorem sharedSymbols_toFinset (holdings1 holdings2 : List Holding) :
    (sharedSymbols holdings1 holdings2).toFinset =
      (symbolsOf holdings1).toFinset ∩ (symbolsOf holdings2).toFinset := by
  rw [sharedSymbols]
  rw [show (holdings1.map (·.symbol)) = symbolsOf holdings1 from rfl]
  rw [List.toFinset_filter]
  rw [← Finset.filter_mem_eq_inter]
  apply Finset.filter_congr
  intro s _
  simp [mapHas_iff, List.mem_toFinset]

theorem overlapPercentage_eq_finset_sum (holdings1 holdings2 : List Holding)
    (h1 : (symbolsOf holdings1).Nodup) (h2 : (symbolsOf holdings2).Nodup) :
    (calculateOverlap holdings1 holdings2).overlapPercentage =
      ∑ s ∈ (symbolsOf holdings1).toFinset ∩ (symbolsOf holdings2).toFinset,
        min (weightOf holdings1 s) (weightOf holdings2 s) := by
  rw [overlapPercentage_eq_contribution_sum, sharedEntries_eq_map _ _ h1 h2,
    List.map_map]
  have hcomp : ((fun e : SharedHolding => e.overlapContribution) ∘
      specEntry holdings1 holdings2) =
      fun s => min (weightOf holdings1 s) (weightOf holdings2 s) := rfl
  rw [hcomp, ← List.sum_toFinset _ (sharedSymbols_nodup _ holdings2 h1),
    sharedSymbols_toFinset]

theorem mem_sharedHoldings_iff (holdings1 holdings2 : List Holding)
    (e : SharedHolding) :
    e ∈ (calculateOverlap holdings1 holdings2).sharedHoldings ↔
      e ∈ sharedEntries holdings1 holdings2 := by
  simp only [calculateOverlap]
  exact List.mem_insertionSort _

theorem map_filterMap_sublist {α β : Type*} (g : α → Option β) (f : β → α)
    (hf : ∀ a b, g a = some b → f b = a) :
    ∀ l : List α, List.Sublist ((l.filterMap g).map f) l
  | [] => by simp
  | x :: t => by
    rw [List.filterMap_cons]
    cases hg : g x with
    | none => exact (map_filterMap_sublist g f hf t).cons x
    | some b =>
      rw [List.map_cons, hf x b hg]
      exact (map_filterMap_sublist g f hf t).cons₂ x

theorem sharedEntries_symbols_sublist (holdings1 holdings2 : List Holding) :
    List.Sublist ((sharedEntries holdings1 holdings2).map (·.symbol))
      (symbolsOf holdings1) := by
  have hsub : List.Sublist ((sharedEntries holdings1 holdings2).map (·.symbol))
      (sharedSymbols holdings1 holdings2) := by
    apply map_filterMap_sublist
    intro a b hg
    cases hm1 : mapGet holdings1 a <;> cases hm2 : mapGet holdings2 a <;>
      simp [hm1, hm2] at hg
    rw [← hg]
  exact hsub.trans (List.filter_sublist _)

/-- C1: for holdings lists whose symbols are unique within each list, the
`overlapPercentage` of `calculateOverlap` equals the sum, over the symbols
present in both lists, of the minimum of the symbol's two weights. -/
theorem claim_C1 (holdings1 holdings2 : List Holding)
    (h1 : (symbolsOf holdings1).Nodup) (h2 : (symbolsOf holdings2).Nodup) :
    (calculateOverlap holdings1 holdings2).overlapPercentage =
      ∑ s ∈ (symbolsOf holdings1).toFinset ∩ (symbolsOf holdings2).toFinset,
        min (weightOf holdings1 s) (weightOf holdings2 s) :=
  overlapPercentage_eq_finset_sum holdings1 holdings2 h1 h2

theorem claim_C1_witness :
    (symbolsOf fundAAA).Nodup ∧ (symbolsOf fundBBB).Nodup ∧
      (calculateOverlap fundAAA fundBBB).overlapPercentage =
        ∑ s ∈ (symbolsOf fundAAA).toFinset ∩ (symbolsOf fundBBB).toFinset,
          min (weightOf fundAAA s) (weightOf fundBBB s) :=
  ⟨by decide, by decide, claim_C1 fundAAA fundBBB (by decide) (by decide)⟩

/-- C4: for holdings lists whose symbols are unique within each list,
`overlapPercentage` is symmetric in its two arguments. -/
theorem claim_C4 (holdings1 holdings2 : List Holding)
    (h1 : (symbolsOf holdings1).Nodup) (h2 : (symbolsOf holdings2).Nodup) :
    (calculateOverlap holdings1 holdings2).overlapPercentage =
      (calculateOverlap holdings2 holdings1).overlapPercentage := by
  rw [overlapPercentage_eq_finset_sum _ _ h1 h2,
    overlapPercentage_eq_finset_sum _ _ h2 h1, Finset.inter_comm]
  exact Finset.sum_congr rfl (fun s _ => min_comm _ _)

theorem claim_C4_witness :
    (symbolsOf fundAAA).Nodup ∧ (symbolsOf fundBBB).Nodup ∧
      (calculateOverlap fundAAA fundBBB).overlapPercentage =
        (calculateOverlap fundBBB fundAAA).overlapPercentage :=
  ⟨by decide, by decide, claim_C4 fundAAA fundBBB (by decide) (by decide)⟩

/-- C6: the `sharedHoldings` list of `calculateOverlap` is sorted in
non-increasing order of `overlapContribution`, and the entries of any
tie-class (a fixed contribution value `v`) are exactly the entries of the
unsorted encounter-order list with that contribution, in the same order —
in particular their symbols occur as a subsequence of the first argument's
holdings order. -/
theorem claim_C6 (holdings1 holdings2 : List Holding) :
    ((calculateOverlap holdings1 holdings2).sharedHoldings).Pairwise
        (fun a b => b.overlapContribution ≤ a.overlapContribution) ∧
      (∀ v : ℚ,
        (calculateOverlap holdings1 holdings2).sharedHoldings.filter
            (fun e => decide (e.overlapContribution = v)) =
          (sharedEntries holdings1 holdings2).filter
            (fun e => decide (e.overlapContribution = v))) ∧
      (∀ v : ℚ,
        List.Sublist
          (((calculateOverlap holdings1 holdings2).sharedHoldings.filter
            (fun e => decide (e.overlapContribution = v))).map (·.symbol))
          (symbolsOf holdings1)) := by
  have hstable : ∀ v : ℚ,
      (calculateOverlap holdings1 holdings2).sharedHoldings.filter
          (fun e => decide (e.overlapContribution = v)) =
        (sharedEntries holdings1 holdings2).filter
          (fun e => decide (e.overlapContribution = v)) := by
    intro v
    simp only [calculateOverlap]
    exact filter_insertionSort_key
      (fun e : SharedHolding => e.overlapContribution) v _
  refine ⟨?_, hstable, ?_⟩
  · simp only [calculateOverlap]
    exact pairwise_insertionSort_key
      (fun e : SharedHolding => e.overlapContribution) _
  · intro v
    rw [hstable v]
    exact (List.Sublist.map _ (List.filter_sublist _)).trans
      (sharedEntries_symbols_sublist holdings1 holdings2)

/-- C10: for holdings lists with unique symbols, every shared-holding entry
reports the first list's name for the symbol, falling back to the second
list's name exactly when the first list's name is the empty string; the
symbol string itself is never substituted by this operation. -/
theorem claim_C10 (holdings1 holdings2 : List Holding)
    (h1 : (symbolsOf holdings1).Nodup) (h2 : (symbolsOf holdings2).Nodup) :
    ∀ e ∈ (calculateOverlap holdings1 holdings2).sharedHoldings,
      e.name = if nameOf holdings1 e.symbol = "" then nameOf holdings2 e.symbol
               else nameOf holdings1 e.symbol := by
  intro e he
  have hmem := (mem_sharedHoldings_iff holdings1 holdings2 e).1 he
  rw [sharedEntries_eq_map _ _ h1 h2] at hmem
  obtain ⟨s, _, rfl⟩ := List.mem_map.1 hmem
  simp [specEntry]

theorem claim_C10_witness :
    (symbolsOf fundAAA).Nodup ∧ (symbolsOf fundBBB).Nodup ∧
      (⟨"MSFT", "Microsoft", 8, 9, 8⟩ : SharedHolding) ∈
        (calculateOverlap fundAAA fundBBB).sharedHoldings ∧
      (⟨"MSFT", "Microsoft", 8, 9, 8⟩ : SharedHolding).name =
        if nameOf fundAAA (⟨"MSFT", "Microsoft", 8, 9, 8⟩ : SharedHolding).symbol = ""
        then nameOf fundBBB (⟨"MSFT", "Microsoft", 8, 9, 8⟩ : SharedHolding).symbol
        else nameOf fundAAA (⟨"MSFT", "Microsoft", 8, 9, 8⟩ : SharedHolding).symbol :=
  ⟨by decide, by decide, by decide,
    claim_C10 fundAAA fundBBB (by decide) (by decide) _ (by decide)⟩

/-! ### Bounds on the overlap percentage (C5) -/

theorem weightOf_nonneg (hs : List Holding) (s : String)
    (hw : ∀ h ∈ hs, 0 ≤ h.weight) : 0 ≤ weightOf hs s := by
  rw [weightOf]
  cases hf : hs.find? (fun h => h.symbol == s) with
  | none => exact le_refl 0
  | some h0 => exact hw h0 (List.mem_of_find?_eq_some hf)

theorem map_weightOf_symbols (hs : List Holding)
    (hnd : (symbolsOf hs).Nodup) :
    (symbolsOf hs).map (fun s => weightOf hs s) = hs.map (·.weight) := by
  induction hs with
  | nil => rfl
  | cons h t ih =>
    obtain ⟨hh, ht⟩ : h.symbol ∉ (t.map (fun h => h.symbol)) ∧
        (symbolsOf t).Nodup := by
      simpa [symbolsOf, List.nodup_cons] using hnd
    have hhead : weightOf (h :: t) h.symbol = h.weight := by
      simp [weightOf, List.find?_cons]
    have htail : ∀ s ∈ symbolsOf t, weightOf (h :: t) s = weightOf t s := by
      intro s hsmem
      have hne : ¬ h.symbol = s := fun he => hh (he ▸ hsmem)
      simp [weightOf, List.find?_cons, hne]
    calc (symbolsOf (h :: t)).map (fun s => weightOf (h :: t) s)
        = weightOf (h :: t) h.symbol ::
            (symbolsOf t).map (fun s => weightOf (h :: t) s) := by
          simp [symbolsOf]
      _ = h.weight :: (symbolsOf t).map (fun s => weightOf t s) := by
          rw [hhead, List.map_congr_left htail]
      _ = (h :: t).map (·.weight) := by rw [ih ht]; simp

theorem sum_weightOf_toFinset (hs : List Holding)
    (hnd : (symbolsOf hs).Nodup) :
    ∑ s ∈ (symbolsOf hs).toFinset, weightOf hs s = (hs.map (·.weight)).sum := by
  rw [List.sum_toFinset _ hnd, map_weightOf_symbols hs hnd]

/-- The holdings list that refutes C5 as stated: both weights lie in
`[0, 100]` but they sum to `120`. -/
def fundHeavy : List Holding := [⟨"XA", "XA Corp", 60⟩, ⟨"YB", "YB Corp", 60⟩]

/-- C5 counterexample: both `fundHeavy` weights are individually within
`[0, 100]` (and its symbols are unique), yet the overlap of `fundHeavy`
with itself is `120 > 100`, so the claimed bound fails. -/
theorem claim_C5_counterexample :
    (∀ h ∈ fundHeavy, 0 ≤ h.weight ∧ h.weight ≤ 100) ∧
      (symbolsOf fundHeavy).Nodup ∧
      (calculateOverlap fundHeavy fundHeavy).overlapPercentage = 120 ∧
      ¬ ((calculateOverlap fundHeavy fundHeavy).overlapPercentage ≤ 100) := by
  have hval : (calculateOverlap fundHeavy fundHeavy).overlapPercentage = 120 := by
    norm_num [calculateOverlap, sharedEntries, sharedSymbols, mapGet, mapHas,
      fundHeavy, List.insertionSort, List.orderedInsert]
  refine ⟨by decide, by decide, hval, ?_⟩
  rw [hval]
  norm_num

/-- C5 (amended): if additionally the weights of each list sum to at most
100 — the claim as stated fails when a fund's listed weights total more
than 100, see the counterexample — and the symbols are unique per list,
then `0 ≤ overlapPercentage ≤ 100`. -/
theorem claim_C5_amended (holdings1 holdings2 : List Holding)
    (h1 : (symbolsOf holdings1).Nodup) (h2 : (symbolsOf holdings2).Nodup)
    (hw1 : ∀ h ∈ holdings1, 0 ≤ h.weight ∧ h.weight ≤ 100)
    (hw2 : ∀ h ∈ holdings2, 0 ≤ h.weight ∧ h.weight ≤ 100)
    (hsum1 : (holdings1.map (·.weight)).sum ≤ 100)
    (hsum2 : (holdings2.map (·.weight)).sum ≤ 100) :
    0 ≤ (calculateOverlap holdings1 holdings2).overlapPercentage ∧
      (calculateOverlap holdings1 holdings2).overlapPercentage ≤ 100 := by
  rw [overlapPercentage_eq_finset_sum _ _ h1 h2]
  constructor
  · apply Finset.sum_nonneg
    intro s _
    exact le_min (weightOf_nonneg _ _ (fun h hm => (hw1 h hm).1))
      (weightOf_nonneg _ _ (fun h hm => (hw2 h hm).1))
  · calc ∑ s ∈ (symbolsOf holdings1).toFinset ∩ (symbolsOf holdings2).toFinset,
          min (weightOf holdings1 s) (weightOf holdings2 s)
        ≤ ∑ s ∈ (symbolsOf holdings1).toFinset ∩ (symbolsOf holdings2).toFinset,
          weightOf holdings1 s :=
          Finset.sum_le_sum (fun s _ => min_le_left _ _)
      _ ≤ ∑ s ∈ (symbolsOf holdings1).toFinset, weightOf holdings1 s := by
          apply Finset.sum_le_sum_of_subset_of_nonneg Finset.inter_subset_left
          intro s _ _
          exact weightOf_nonneg _ _ (fun h hm => (hw1 h hm).1)
      _ = (holdings1.map (·.weight)).sum := sum_weightOf_toFinset holdings1 h1
      _ ≤ 100 := hsum1

theorem claim_C5_amended_witness :
    (symbolsOf fundAAA).Nodup ∧ (symbolsOf fundBBB).Nodup ∧
      (∀ h ∈ fundAAA, 0 ≤ h.weight ∧ h.weight ≤ 100) ∧
      (∀ h ∈ fundBBB, 0 ≤ h.weight ∧ h.weight ≤ 100) ∧
      (fundAAA.map (·.weight)).sum ≤ 100 ∧
      (fundBBB.map (·.weight)).sum ≤ 100 ∧
      (0 ≤ (calculateOverlap fundAAA fundBBB).overlapPercentage ∧
        (calculateOverlap fundAAA fundBBB).overlapPercentage ≤ 100) :=
  ⟨by decide, by decide, by decide, by decide,
    by norm_num [fundAAA], by norm_num [fundBBB],
    claim_C5_amended fundAAA fundBBB (by decide) (by decide) (by decide)
      (by decide) (by norm_num [fundAAA]) (by norm_num [fundBBB])⟩

/-! ### The overlap matrix (C3) -/

theorem round2_eq_specRound2 (q : ℚ) : round2 q = specRound2 q := by
  simp [round2, jsRound, specRound2]

/-- C3: for at least two tickers, each with a non-empty holdings list, the
matrix is `N×N`, its diagonal entries are exactly `100`, and each
off-diagonal entry is the pairwise `overlapPercentage` rounded to two
decimal places with round-half-up semantics. -/
theorem claim_C3 (holdingsBy : String → List Holding) (tickers : List String)
    (hN : 2 ≤ tickers.length) (hne : ∀ t ∈ tickers, holdingsBy t ≠ []) :
    (overlapMatrix holdingsBy tickers).length = tickers.length ∧
      (∀ row ∈ overlapMatrix holdingsBy tickers, row.length = tickers.length) ∧
      ∀ i j, i < tickers.length → j < tickers.length →
        ((overlapMatrix holdingsBy tickers).getD i []).getD j 0 =
          if i = j then 100
          else specRound2 (calculateOverlap (holdingsBy (tickers.getD i ""))
            (holdingsBy (tickers.getD j ""))).overlapPercentage := by
  refine ⟨by simp [overlapMatrix], ?_, ?_⟩
  · intro row hrow
    obtain ⟨i, _, rfl⟩ := List.mem_map.1 hrow
    simp
  · intro i j hi hj
    have hrow : (overlapMatrix holdingsBy tickers).getD i [] =
        (List.range tickers.length).map (fun j =>
          if i = j then (100 : ℚ)
          else round2 (calculateOverlap (holdingsBy (tickers.getD i ""))
            (holdingsBy (tickers.getD j ""))).overlapPercentage) := by
      simp [overlapMatrix, List.getD_eq_getElem?_getD, List.getElem?_map,
        List.getElem?_range, hi]
    rw [hrow]
    simp only [List.getD_eq_getElem?_getD, List.getElem?_map,
      List.getElem?_range, hj, Option.getD_some, Option.map_some']
    rw [round2_eq_specRound2]

/-- Two-fund holdings lookup used to instantiate matrix/core theorems. -/
def pairFunds : String → List Holding := fun t =>
  if t = "AAA" then fundAAA else if t = "BBB" then fundBBB else []

theorem claim_C3_witness :
    2 ≤ (["AAA", "BBB"] : List String).length ∧
      (∀ t ∈ (["AAA", "BBB"] : List String), pairFunds t ≠ []) ∧
      ((overlapMatrix pairFunds ["AAA", "BBB"]).length =
          (["AAA", "BBB"] : List String).length ∧
        (∀ row ∈ overlapMatrix pairFunds ["AAA", "BBB"],
          row.length = (["AAA", "BBB"] : List String).length) ∧
        ∀ i j, i < (["AAA", "BBB"] : List String).length →
          j < (["AAA", "BBB"] : List String).length →
          ((overlapMatrix pairFunds ["AAA", "BBB"]).getD i []).getD j 0 =
            if i = j then 100
            else specRound2 (calculateOverlap
              (pairFunds ((["AAA", "BBB"] : List String).getD i ""))
              (pairFunds ((["AAA", "BBB"] : List String).getD j
                ""))).overlapPercentage) :=
  ⟨by decide, by decide, claim_C3 pairFunds ["AAA", "BBB"] (by decide) (by decide)⟩

/-! ### The core (N-way) overlap -/

/-- C7: with fewer than two tickers, `calculateCoreOverlap` returns the
zero result — `totalOverlap = 0`, no shared holdings,
`totalSharedHoldings = 0` — rather than failing. -/
theorem claim_C7 (holdingsBy : String → List Holding) (tickers : List String)
    (h : tickers.length < 2) :
    calculateCoreOverlap holdingsBy tickers =
      { totalOverlap := 0, sharedHoldings := [], totalSharedHoldings := 0 } := by
  simp [calculateCoreOverlap, h]

theorem claim_C7_witness :
    (["AAA"] : List String).length < 2 ∧
      calculateCoreOverlap pairFunds ["AAA"] =
        { totalOverlap := 0, sharedHoldings := [], totalSharedHoldings := 0 } :=
  ⟨by decide, claim_C7 pairFunds ["AAA"] (by decide)⟩

/-- Failing input for C8: the first fund knows the symbol with an empty
name, the second fund carries a proper display name. -/
def nameFunds : String → List Holding := fun t =>
  if t = "F1" then [⟨"AAPL", "", 1⟩]
  else if t = "F2" then [⟨"AAPL", "Apple Inc.", 2⟩] else []

/-- C8: the code evaluates `names[0] || symbol`, so with the first fund's
name empty it reports the SYMBOL (`"AAPL"`) as display name, although the
first non-empty name across funds in order (`"Apple Inc."`, from the
second fund) exists — contradicting the source's own
`// Use first non-empty name` comment and the claim. -/
theorem claim_C8 :
    ((calculateCoreOverlap nameFunds ["F1", "F2"]).sharedHoldings.map
        (fun e => e.name)) = ["AAPL"] ∧
      (((["F1", "F2"] : List String).map
          (fun t => nameOf (nameFunds t) "AAPL")).filter
        (fun n => !(n == ""))) = ["Apple Inc."] := by
  decide

theorem any_symbol_iff (hs : List Holding) (s : String) :
    (hs.any (fun h => h.symbol == s)) = true ↔ s ∈ symbolsOf hs := by
  simp [List.any_eq_true, symbolsOf]

theorem mem_coreSharedSymbols (holdingsBy : String → List Holding)
    (t0 : String) (rest : List String) (s : String) :
    s ∈ coreSharedSymbols holdingsBy (t0 :: rest) ↔
      s ∈ symbolsOf (holdingsBy t0) ∧
        ∀ t ∈ rest, s ∈ symbolsOf (holdingsBy t) := by
  constructor
  · intro hmem
    obtain ⟨h0, hall⟩ := List.mem_filter.1 hmem
    refine ⟨by simpa [symbolsOf] using h0, ?_⟩
    intro t ht
    have h : ∀ x ∈ rest, ∃ a ∈ holdingsBy x, a.symbol = s := by simpa using hall
    simpa [symbolsOf] using h t ht
  · intro ⟨h0, hrest⟩
    apply List.mem_filter.2
    refine ⟨by simpa [symbolsOf] using h0, ?_⟩
    simp only [List.drop_one, List.tail_cons, List.all_eq_true]
    intro t ht
    exact (any_symbol_iff _ s).2 (hrest t ht)

theorem core_foldl_eq (holdingsBy : String → List Holding) (s : String) :
    ∀ (tks : List String) (accW : List (String × ℚ)) (accN : List String),
      tks.Nodup → (∀ t ∈ tks, ∀ p ∈ accW, p.1 ≠ t) →
      tks.foldl
          (fun (acc : List (String × ℚ) × List String) t =>
            match (holdingsBy t).find? (fun h => h.symbol == s) with
            | some h => (objSet acc.1 t h.weight, acc.2 ++ [h.name])
            | none => acc)
          (accW, accN) =
        (accW ++ tks.filterMap (fun t =>
            ((holdingsBy t).find? (fun h => h.symbol == s)).map
              (fun h => (t, h.weight))),
          accN ++ tks.filterMap (fun t =>
            ((holdingsBy t).find? (fun h => h.symbol == s)).map
              (fun h => h.name)))
  | [], accW, accN, _, _ => by simp
  | t :: rest, accW, accN, hnd, hfresh => by
    obtain ⟨htr, hndr⟩ := List.nodup_cons.1 hnd
    rw [List.foldl_cons, List.filterMap_cons, List.filterMap_cons]
    cases hf : (holdingsBy t).find? (fun h => h.symbol == s) with
    | none =>
      simp only
      rw [core_foldl_eq holdingsBy s rest accW accN hndr
        (fun u hu p hp => hfresh u (List.mem_cons_of_mem _ hu) p hp)]
      simp
    | some h =>
      simp only
      have hnotin : (accW.any (fun p => p.1 == t)) = false := by
        rw [List.any_eq_false]
        intro p hp
        simpa using hfresh t (by simp) p hp
      have hobj : objSet accW t h.weight = accW ++ [(t, h.weight)] := by
        simp [objSet, hnotin]
      rw [hobj, core_foldl_eq holdingsBy s rest (accW ++ [(t, h.weight)])
        (accN ++ [h.name]) hndr ?_]
      · simp
      · intro u hu p hp
        rcases List.mem_append.1 hp with hp | hp
        · exact hfresh u (List.mem_cons_of_mem _ hu) p hp
        · have hpt : p = (t, h.weight) := by simpa using hp
          subst hpt
          intro he
          apply htr
          have ht' : t = u := by simpa using he
          rw [ht']
          exact hu

theorem mkCoreEntry_eq (holdingsBy : String → List Holding)
    (tks : List String) (s : String) (hnd : tks.Nodup)
    (hall : ∀ t ∈ tks, s ∈ symbolsOf (holdingsBy t)) :
    mkCoreEntry holdingsBy tks s =
      { symbol := s
        name :=
          match (tks.map (fun t => nameOf (holdingsBy t) s)).head? with
          | some n => if n = "" then s else n
          | none => s
        weights := tks.map (fun t => (t, weightOf (holdingsBy t) s))
        minWeight := listMin (tks.map (fun t => weightOf (holdingsBy t) s)) } := by
  have hW : tks.filterMap (fun t =>
      ((holdingsBy t).find? (fun h => h.symbol == s)).map
        (fun h => (t, h.weight))) =
      tks.map (fun t => (t, weightOf (holdingsBy t) s)) := by
    apply filterMap_eq_map_of_some
    intro t ht
    obtain ⟨h0, hf⟩ := find?_symbol_eq_some (holdingsBy t) s (hall t ht)
    simp [hf, weightOf]
  have hN : tks.filterMap (fun t =>
      ((holdingsBy t).find? (fun h => h.symbol == s)).map
        (fun h => h.name)) =
      tks.map (fun t => nameOf (holdingsBy t) s) := by
    apply filterMap_eq_map_of_some
    intro t ht
    obtain ⟨h0, hf⟩ := find?_symbol_eq_some (holdingsBy t) s (hall t ht)
    simp [hf, nameOf]
  rw [mkCoreEntry]
  simp only [core_foldl_eq holdingsBy s tks [] [] hnd (by simp),
    List.nil_append, hW, hN]
  congr 1
  rw [List.map_map]
  rfl

theorem mkCoreEntry_symbol (holdingsBy : String → List Holding)
    (tickers : List String) (s : String) :
    (mkCoreEntry holdingsBy tickers s).symbol = s := rfl

theorem coreOverlap_sharedHoldings (holdingsBy : String → List Holding)
    (tickers : List String) (h2 : ¬ tickers.length < 2) :
    (calculateCoreOverlap holdingsBy tickers).sharedHoldings =
      ((coreSharedSymbols holdingsBy tickers).map
        (mkCoreEntry holdingsBy tickers)).insertionSort
          (fun a b => b.minWeight ≤ a.minWeight) := by
  simp [calculateCoreOverlap, h2]

theorem coreOverlap_totalOverlap (holdingsBy : String → List Holding)
    (tickers : List String) (h2 : ¬ tickers.length < 2) :
    (calculateCoreOverlap holdingsBy tickers).totalOverlap =
      ((calculateCoreOverlap holdingsBy tickers).sharedHoldings.map
        (·.minWeight)).sum := by
  simp only [calculateCoreOverlap, if_neg h2]
  rw [foldl_add_eq_sum, zero_add]

theorem mem_core_sharedHoldings (holdingsBy : String → List Holding)
    (tickers : List String) (h2 : ¬ tickers.length < 2) (e : CoreShared) :
    e ∈ (calculateCoreOverlap holdingsBy tickers).sharedHoldings ↔
      ∃ s ∈ coreSharedSymbols holdingsBy tickers,
        mkCoreEntry holdingsBy tickers s = e := by
  rw [coreOverlap_sharedHoldings _ _ h2, List.mem_insertionSort, List.mem_map]

theorem core_symbol_mem_all (holdingsBy : String → List Holding)
    (tickers : List String) (e : CoreShared)
    (he : e ∈ (calculateCoreOverlap holdingsBy tickers).sharedHoldings) :
    ∀ t ∈ tickers, e.symbol ∈ symbolsOf (holdingsBy t) := by
  by_cases h2 : tickers.length < 2
  · simp [calculateCoreOverlap, h2] at he
  · obtain ⟨s, hs, rfl⟩ := (mem_core_sharedHoldings _ _ h2 e).1 he
    cases tickers with
    | nil => exact absurd (by simp) h2
    | cons t0 rest =>
      obtain ⟨h0, hrest⟩ := (mem_coreSharedSymbols _ _ _ _).1 hs
      intro t ht
      rcases List.mem_cons.1 ht with rfl | ht
      · simpa [mkCoreEntry_symbol] using h0
      · simpa [mkCoreEntry_symbol] using hrest t ht

theorem sharedEntries_exists_of_mem (holdings1 holdings2 : List Holding)
    (s : String) (hsA : s ∈ symbolsOf holdings1) (hsB : s ∈ symbolsOf holdings2) :
    ∃ e ∈ sharedEntries holdings1 holdings2, e.symbol = s := by
  have hg1 : (mapGet holdings1 s).isSome = true := (mapGet_isSome_iff _ s).2 hsA
  have hg2 : (mapGet holdings2 s).isSome = true := (mapGet_isSome_iff _ s).2 hsB
  cases hm1 : mapGet holdings1 s with
  | none => rw [hm1] at hg1; simp at hg1
  | some a1 =>
    cases hm2 : mapGet holdings2 s with
    | none => rw [hm2] at hg2; simp at hg2
    | some a2 =>
      rw [sharedEntries]
      refine ⟨{ symbol := s
                name := if a1.name = "" then a2.name else a1.name
                weight1 := a1.weight
                weight2 := a2.weight
                overlapContribution := min a1.weight a2.weight },
        List.mem_filterMap.2 ⟨s, ?_, ?_⟩, rfl⟩
      · apply List.mem_filter.2
        refine ⟨by simpa [symbolsOf] using hsA, ?_⟩
        simp [mapHas, hm2]
      · simp [hm1, hm2]

/-- C2: for an ordered list of at least two distinct fund identifiers with
unique symbols per holdings list, the core overlap's `sharedHoldings`
consists exactly of the symbols present in every fund's list (no
duplicates), each entry carries the `fundId → weight` mapping in
`fundIds` order and `minWeight` equal to the minimum of those weights,
and `totalOverlap` is the sum of `minWeight` over all shared holdings. -/
theorem claim_C2 (holdingsBy : String → List Holding) (fundIds : List String)
    (hlen : 2 ≤ fundIds.length) (hndF : fundIds.Nodup)
    (hnd : ∀ t ∈ fundIds, (symbolsOf (holdingsBy t)).Nodup) :
    (((calculateCoreOverlap holdingsBy fundIds).sharedHoldings.map
        (·.symbol)).Nodup) ∧
      (∀ s : String,
        (∃ e ∈ (calculateCoreOverlap holdingsBy fundIds).sharedHoldings,
            e.symbol = s) ↔
          ∀ t ∈ fundIds, s ∈ symbolsOf (holdingsBy t)) ∧
      (∀ e ∈ (calculateCoreOverlap holdingsBy fundIds).sharedHoldings,
        e.weights = fundIds.map (fun t => (t, weightOf (holdingsBy t) e.symbol))) ∧
      (∀ e ∈ (calculateCoreOverlap holdingsBy fundIds).sharedHoldings,
        e.minWeight =
          listMin (fundIds.map (fun t => weightOf (holdingsBy t) e.symbol))) ∧
      ((calculateCoreOverlap holdingsBy fundIds).totalOverlap =
        ((calculateCoreOverlap holdingsBy fundIds).sharedHoldings.map
          (·.minWeight)).sum) := by
  have h2 : ¬ fundIds.length < 2 := by omega
  refine ⟨?_, ?_, ?_, ?_, coreOverlap_totalOverlap _ _ h2⟩
  · -- the result's symbols have no duplicates
    rw [coreOverlap_sharedHoldings _ _ h2]
    have hperm := (List.perm_insertionSort
      (fun a b : CoreShared => b.minWeight ≤ a.minWeight)
      ((coreSharedSymbols holdingsBy fundIds).map
        (mkCoreEntry holdingsBy fundIds))).map (fun e : CoreShared => e.symbol)
    rw [hperm.nodup_iff, List.map_map]
    have hid : ((fun e : CoreShared => e.symbol) ∘ mkCoreEntry holdingsBy fundIds) =
        id := by
      funext s
      rfl
    rw [hid, List.map_id]
    cases fundIds with
    | nil => exact absurd (by simp) h2
    | cons t0 rest =>
      exact (hnd t0 (by simp)).filter _
  · -- membership characterisation
    intro s
    constructor
    · rintro ⟨e, he, rfl⟩
      exact core_symbol_mem_all holdingsBy fundIds e he
    · intro hallmem
      cases fundIds with
      | nil => exact absurd (by simp) h2
      | cons t0 rest =>
        have hsc : s ∈ coreSharedSymbols holdingsBy (t0 :: rest) :=
          (mem_coreSharedSymbols _ _ _ _).2
            ⟨hallmem t0 (by simp),
              fun t ht => hallmem t (List.mem_cons_of_mem _ ht)⟩
        exact ⟨mkCoreEntry holdingsBy (t0 :: rest) s,
          (mem_core_sharedHoldings _ _ h2 _).2 ⟨s, hsc, rfl⟩,
          mkCoreEntry_symbol _ _ _⟩
  · -- the weights dictionary
    intro e he
    have hall := core_symbol_mem_all holdingsBy fundIds e he
    obtain ⟨s, _, rfl⟩ := (mem_core_sharedHoldings _ _ h2 e).1 he
    rw [mkCoreEntry_symbol] at *
    rw [mkCoreEntry_eq holdingsBy fundIds s hndF
      (by simpa [mkCoreEntry_symbol] using hall)]
  · -- the minimum weight
    intro e he
    have hall := core_symbol_mem_all holdingsBy fundIds e he
    obtain ⟨s, _, rfl⟩ := (mem_core_sharedHoldings _ _ h2 e).1 he
    rw [mkCoreEntry_symbol] at *
    rw [mkCoreEntry_eq holdingsBy fundIds s hndF
      (by simpa [mkCoreEntry_symbol] using hall)]

theorem claim_C2_witness :
    2 ≤ (["AAA", "BBB"] : List String).length ∧
      (["AAA", "BBB"] : List String).Nodup ∧
      (∀ t ∈ (["AAA", "BBB"] : List String),
        (symbolsOf (pairFunds t)).Nodup) ∧
      ((((calculateCoreOverlap pairFunds ["AAA", "BBB"]).sharedHoldings.map
          (·.symbol)).Nodup) ∧
        (∀ s : String,
          (∃ e ∈ (calculateCoreOverlap pairFunds ["AAA", "BBB"]).sharedHoldings,
              e.symbol = s) ↔
            ∀ t ∈ (["AAA", "BBB"] : List String),
              s ∈ symbolsOf (pairFunds t)) ∧
        (∀ e ∈ (calculateCoreOverlap pairFunds ["AAA", "BBB"]).sharedHoldings,
          e.weights = (["AAA", "BBB"] : List String).map
            (fun t => (t, weightOf (pairFunds t) e.symbol))) ∧
        (∀ e ∈ (calculateCoreOverlap pairFunds ["AAA", "BBB"]).sharedHoldings,
          e.minWeight = listMin ((["AAA", "BBB"] : List String).map
            (fun t => weightOf (pairFunds t) e.symbol))) ∧
        ((calculateCoreOverlap pairFunds ["AAA", "BBB"]).totalOverlap =
          ((calculateCoreOverlap pairFunds ["AAA", "BBB"]).sharedHoldings.map
            (·.minWeight)).sum)) :=
  ⟨by decide, by decide, by decide,
    claim_C2 pairFunds ["AAA", "BBB"] (by decide) (by decide) (by decide)⟩

/-- C9: with unique symbols per holdings list, every symbol of the core
overlap's shared holdings also appears in the `sharedHoldings` list of the
pairwise overlap of every ordered pair of distinct funds of the set. -/
theorem claim_C9 (holdingsBy : String → List Holding) (fundIds : List String)
    (hnd : ∀ t ∈ fundIds, (symbolsOf (holdingsBy t)).Nodup)
    (ti tj : String) (hti : ti ∈ fundIds) (htj : tj ∈ fundIds)
    (hne : ti ≠ tj) :
    ∀ e ∈ (calculateCoreOverlap holdingsBy fundIds).sharedHoldings,
      ∃ e' ∈ (calculateOverlap (holdingsBy ti) (holdingsBy tj)).sharedHoldings,
        e'.symbol = e.symbol := by
  intro e he
  have hall := core_symbol_mem_all holdingsBy fundIds e he
  obtain ⟨e', he', hsym⟩ := sharedEntries_exists_of_mem (holdingsBy ti)
    (holdingsBy tj) e.symbol (hall ti hti) (hall tj htj)
  exact ⟨e', (mem_sharedHoldings_iff _ _ e').2 he', hsym⟩

theorem claim_C9_witness :
    (∀ t ∈ (["AAA", "BBB"] : List String), (symbolsOf (pairFunds t)).Nodup) ∧
      "AAA" ∈ (["AAA", "BBB"] : List String) ∧
      "BBB" ∈ (["AAA", "BBB"] : List String) ∧
      ("AAA" : String) ≠ "BBB" ∧
      (⟨"MSFT", "Microsoft", [("AAA", 8), ("BBB", 9)], 8⟩ : CoreShared) ∈
        (calculateCoreOverlap pairFunds ["AAA", "BBB"]).sharedHoldings ∧
      ∃ e' ∈ (calculateOverlap (pairFunds "AAA")
          (pairFunds "BBB")).sharedHoldings,
        e'.symbol = (⟨"MSFT", "Microsoft", [("AAA", 8), ("BBB", 9)], 8⟩ :
          CoreShared).symbol :=
  ⟨by decide, by decide, by decide, by decide, by decide,
    claim_C9 pairFunds ["AAA", "BBB"] (by decide) "AAA" "BBB" (by decide)
      (by decide) (by decide) _ (by decide)⟩
